import Mathlib

/-!
Verification of the unmute LLM-side text utilities, chat history operations,
tool registry, tool invocation loop and the streaming test-harness handshake,
embedded from the Python sources in `unmute/llm` and `interface_test`.

Strings are modelled by Lean `String` / `List Char`; a Python character is a
Unicode scalar value, matching Lean `Char`.
-/

/-- Python regex `\s` / `str.isspace` / `str.strip` whitespace predicate:
Unicode whitespace plus the information separators U+001C-U+001F, which
Python classifies as whitespace alongside U+0009-U+000D. -/
def pyIsSpace (c : Char) : Bool :=
  let n := c.toNat
  n = 0x20 || (0x9 ≤ n && n ≤ 0xD) || (0x1C ≤ n && n ≤ 0x1F) || n = 0x85 ||
    n = 0xA0 || n = 0x1680 || (0x2000 ≤ n && n ≤ 0x200A) || n = 0x2028 ||
    n = 0x2029 || n = 0x202F || n = 0x205F || n = 0x3000

/-- The character class of the emoji regex in `clean_text_for_tts`
(`unmute/llm/llm_utils.py`): six code-point ranges. -/
def isEmojiChar (c : Char) : Bool :=
  let n := c.toNat
  (0x1F600 ≤ n && n ≤ 0x1F64F) ||   -- emoticons
  (0x1F300 ≤ n && n ≤ 0x1F5FF) ||   -- symbols and pictographs
  (0x1F680 ≤ n && n ≤ 0x1F6FF) ||   -- transport and map symbols
  (0x1F1E0 ≤ n && n ≤ 0x1F1FF) ||   -- flags
  (0x2702 ≤ n && n ≤ 0x27B0) ||     -- dingbats
  (0x24C2 ≤ n && n ≤ 0x1F251)       -- enclosed characters

/-- `emoji_pattern.sub('', text)` character scan: the pattern is
`[class]+`, and substituting a run of class characters by the empty string
deletes each class character, so the scan drops a character exactly when it
is in the class. -/
def emojiSub : List Char → List Char
  | [] => []
  | c :: cs => if isEmojiChar c then emojiSub cs else c :: emojiSub cs

/-- `clean_text_for_tts` from `unmute/llm/llm_utils.py`: delete every
character matched by the emoji pattern, keep everything else. -/
def clean_text_for_tts (s : String) : String :=
  ⟨emojiSub s.data⟩

/- Sanity checks on concrete inputs. -/
example : clean_text_for_tts ("hello") = "hello" := by decide
example : clean_text_for_tts ("hi🙂!") = "hi!" := by decide

theorem emojiSub_eq_filter (l : List Char) :
    emojiSub l = l.filter (fun c => !(isEmojiChar c)) := by
  induction l with
  | nil => rfl
  | cons c cs ih =>
    by_cases h : isEmojiChar c
    · simp [emojiSub, h, List.filter, ih]
    · simp [emojiSub, h, List.filter, ih]

theorem emojiSub_append (a b : List Char) :
    emojiSub (a ++ b) = emojiSub a ++ emojiSub b := by
  simp [emojiSub_eq_filter, List.filter_append]

/-- C1 (counterexample): the claim asserts that `clean_text_for_tts` removes
every opening bracket character; on the input `"(abc)"` the opening bracket
survives in the output, so the claim is false: the function has no bracket
handling at all. -/
theorem C1_counterexample :
    '(' ∈ (clean_text_for_tts ("(abc)")).data ∧
      clean_text_for_tts ("(abc)") = "(abc)" := by
  constructor
  · decide
  · decide

/-- C1 (amended): `clean_text_for_tts` removes exactly the characters in the
six emoji code-point ranges and emits every other character unchanged, in
order; it maintains no bracket state, so bracket characters (which lie outside
the ranges) and the text between them are preserved. -/
theorem C1_clean_text_is_emoji_filter (s : String) :
    (clean_text_for_tts s).data = s.data.filter (fun c => !(isEmojiChar c)) ∧
      (∀ c : Char, c ∈ (clean_text_for_tts s).data ↔
        (c ∈ s.data ∧ isEmojiChar c = false)) := by
  constructor
  · exact emojiSub_eq_filter s.data
  · intro c
    rw [show (clean_text_for_tts s).data = emojiSub s.data from rfl,
      emojiSub_eq_filter]
    simp [List.mem_filter]

/-- Concatenation of a list of strings, in order. -/
def concatAll (l : List String) : String :=
  l.foldr (fun a b => a ++ b) ""

/-- C2: the sanitizer is split-invariant: feeding any sequence of deltas one
at a time and concatenating the outputs gives the same text as sanitizing the
concatenation in one call (the sanitizer keeps no state between calls). -/
theorem C2_clean_text_split_invariant (ds : List String) :
    concatAll (ds.map clean_text_for_tts) =
      clean_text_for_tts (concatAll ds) := by
  induction ds with
  | nil => rfl
  | cons d ds ih =>
    show clean_text_for_tts d ++ concatAll (ds.map clean_text_for_tts) =
      clean_text_for_tts (d ++ concatAll ds)
    rw [ih]
    apply String.ext
    show (clean_text_for_tts d).data ++ (clean_text_for_tts (concatAll ds)).data
      = emojiSub (d ++ concatAll ds).data
    rw [String.data_append, emojiSub_append]
    rfl

/-! ## Chat messages

The dict shape used by `Chatbot.chat_history` in `unmute/llm/chatbot.py`:
`role` and `content` always present; tool rounds also attach `tool_calls`
(assistant messages) and `tool_call_id` (tool messages). Absent keys are
modelled by the default field values. -/

inductive ToolArguments where
  | argsStr (s : String)
  | argsDict (d : List (String × String))
deriving DecidableEq, Repr

structure ToolFunction where
  name : String
  arguments : ToolArguments
deriving DecidableEq, Repr

structure ToolCall where
  id : Option String := none
  function : ToolFunction
deriving DecidableEq, Repr

structure Msg where
  role : String
  content : String
  tool_call_id : Option String := none
  tool_calls : List ToolCall := []
deriving DecidableEq, Repr

/-- Python `str.strip()`: drop whitespace from both ends. -/
def pyStrip (s : String) : String :=
  ⟨((s.data.dropWhile pyIsSpace).reverse.dropWhile pyIsSpace).reverse⟩

inductive ConversationState where
  | waiting_for_user
  | user_speaking
  | bot_speaking
deriving DecidableEq, Repr

/-- `Chatbot.conversation_state` from `unmute/llm/chatbot.py`. The Python
checks `if not self.chat_history` and otherwise reads `chat_history[-1]`;
both are captured by matching on `getLast?`. An unknown role raises
`RuntimeError`, modelled by `Except.error`. -/
def conversation_state (hist : List Msg) : Except String ConversationState :=
  match hist.getLast? with
  | none => .ok .waiting_for_user
  | some last_message =>
    if last_message.role = "assistant" then .ok .bot_speaking
    else if last_message.role = "user" then
      if pyStrip last_message.content ≠ "" then .ok .user_speaking
      else .ok .waiting_for_user
    else if last_message.role = "system" then .ok .waiting_for_user
    else if last_message.role = "tool" then .ok .waiting_for_user
    else .error ("Unknown role: " ++ last_message.role)

/-- `last_message != "" and not last_message[-1].isspace()` -/
def lastCharNonSpace (s : String) : Bool :=
  match s.data.reverse with
  | [] => false
  | c :: _ => !(pyIsSpace c)

/-- `delta != "" and not delta[0].isspace()` -/
def headCharNonSpace (s : String) : Bool :=
  match s.data with
  | [] => false
  | c :: _ => !(pyIsSpace c)

/-- Body of `Chatbot.add_chat_message_delta` past the race guard: append a
new message when the history is empty or its last role differs, otherwise
extend the last message, inserting one space at a fusing boundary. Returns
the updated history and the "is a new message" flag. -/
def addCore (hist : List Msg) (delta : String) (role : String) :
    List Msg × Bool :=
  match hist.getLast? with
  | none => (hist ++ [{ role := role, content := delta }], true)
  | some lastMsg =>
    if lastMsg.role ≠ role then
      (hist ++ [{ role := role, content := delta }], true)
    else
      let last_message := lastMsg.content
      let needs_space_left := lastCharNonSpace last_message
      let needs_space_right := headCharNonSpace delta
      let delta2 := if needs_space_left && needs_space_right
        then " " ++ delta else delta
      (hist.dropLast ++ [{ lastMsg with content := last_message ++ delta2 }],
        last_message == "")

/-- `Chatbot.add_chat_message_delta` from `unmute/llm/chatbot.py`: when
`generating_message_i` is given and `len(chat_history) > generating_message_i`,
the call is rejected (warning logged, history untouched, returns `False`). -/
def add_chat_message_delta (hist : List Msg) (delta : String) (role : String)
    (generating_message_i : Option Nat) : List Msg × Bool :=
  match generating_message_i with
  | some i => if hist.length > i then (hist, false) else addCore hist delta role
  | none => addCore hist delta role

example :
    add_chat_message_delta [{ role := "user", content := "foo" }] "bar" "user"
      none = ([{ role := "user", content := "foo bar" }], false) := by decide
example :
    add_chat_message_delta [{ role := "user", content := "foo " }] "bar" "user"
      none = ([{ role := "user", content := "foo bar" }], false) := by decide
example :
    add_chat_message_delta [{ role := "user", content := "" }] "bar" "user"
      none = ([{ role := "user", content := "bar" }], true) := by decide
/- The information separators U+001C-U+001F count as whitespace, as in
Python: content ending in U+001C takes no inserted space, and a message
whose content is only U+001C is blank. -/
example :
    add_chat_message_delta [{ role := "user", content := "a\x1C" }] "b" "user"
      none = ([{ role := "user", content := "a\x1Cb" }], false) := by decide
example :
    conversation_state [{ role := "user", content := "\x1C" }] =
      .ok .waiting_for_user := rfl

/-- History used to instantiate the race-guard statements. -/
def raceHist : List Msg := [{ role := "system", content := "s" }]

/-- C3 (counterexample): the claim says a supplied expected index causes a
rejection if and only if it differs from the current history length; here the
index 2 differs from the length 1, yet the call is accepted and appends a
message instead of leaving the history untouched, so the claim is false. -/
theorem C3_counterexample :
    (2 : Nat) ≠ raceHist.length ∧
      add_chat_message_delta raceHist "x" "user" (some 2) =
        (raceHist ++ [{ role := "user", content := "x" }], true) := by
  constructor
  · decide
  · decide

/-- C3 (amended): a call with expected index `i` is rejected — history
unchanged, `False` returned — exactly when the current history length is
greater than `i`; when the length is at most `i`, the call behaves as if no
index had been supplied. A rejected call leaves the history exactly as it
was. -/
theorem C3_race_guard (hist : List Msg) (delta role : String) (i : Nat) :
    (hist.length > i →
      add_chat_message_delta hist delta role (some i) = (hist, false)) ∧
    (hist.length ≤ i →
      add_chat_message_delta hist delta role (some i) =
        add_chat_message_delta hist delta role none) := by
  refine ⟨fun h => ?_, fun h => ?_⟩
  · simp [add_chat_message_delta, h]
  · simp [add_chat_message_delta, Nat.not_lt.mpr h]

theorem C3_race_guard_witness :
    add_chat_message_delta raceHist "x" "user" (some 0) = (raceHist, false) :=
  (C3_race_guard raceHist "x" "user" 0).1 (by decide)

/-- C6: with no expected index and a delta of the same role as the last
message, `add_chat_message_delta` extends that one message: exactly one space
is inserted when the old content is non-empty not ending in whitespace and
the delta is non-empty not starting in whitespace, none otherwise; the call
reports a new message exactly when the old content was empty. -/
theorem C6_same_role_extends (hist : List Msg) (m : Msg) (r c d : String)
    (hlast : hist.getLast? = some m) (hrole : m.role = r)
    (hc : m.content = c) :
    add_chat_message_delta hist d r none =
      (hist.dropLast ++
        [{ m with content :=
            c ++ (if lastCharNonSpace c && headCharNonSpace d
              then " " ++ d else d) }],
        c == "") := by
  subst hrole
  subst hc
  simp [add_chat_message_delta, addCore, hlast]

theorem C6_same_role_extends_witness :
    add_chat_message_delta [{ role := "assistant", content := "foo" }] "bar"
        "assistant" none =
      ([{ role := "assistant", content := "foo bar" }], false) := by
  have h := C6_same_role_extends [{ role := "assistant", content := "foo" }]
    { role := "assistant", content := "foo" } "assistant" "foo" "bar"
    (by decide) rfl rfl
  exact h.trans (by decide)

/-- C7: `conversation_state` returns `waiting_for_user` on an empty history
or when the last role is `system` or `tool`; `bot_speaking` when the last
role is `assistant` (even with empty content); for a last `user` message,
`user_speaking` when the stripped content is non-empty and `waiting_for_user`
when it is blank; any other role raises the fatal `Unknown role` error. -/
theorem C7_conversation_state (hist : List Msg) :
    (hist = [] → conversation_state hist = .ok .waiting_for_user) ∧
    (∀ m : Msg, hist.getLast? = some m →
      (m.role = "assistant" → conversation_state hist = .ok .bot_speaking) ∧
      (m.role = "user" → pyStrip m.content ≠ "" →
        conversation_state hist = .ok .user_speaking) ∧
      (m.role = "user" → pyStrip m.content = "" →
        conversation_state hist = .ok .waiting_for_user) ∧
      (m.role = "system" → conversation_state hist = .ok .waiting_for_user) ∧
      (m.role = "tool" → conversation_state hist = .ok .waiting_for_user) ∧
      (m.role ≠ "assistant" → m.role ≠ "user" → m.role ≠ "system" →
        m.role ≠ "tool" →
        conversation_state hist = .error ("Unknown role: " ++ m.role))) := by
  constructor
  · intro h
    subst h
    rfl
  · intro m hm
    refine ⟨?_, ?_, ?_, ?_, ?_, ?_⟩
    · intro h1
      simp [conversation_state, hm, h1]
    · intro h1 h2
      simp [conversation_state, hm, h1, h2]
    · intro h1 h2
      simp [conversation_state, hm, h1, h2]
    · intro h1
      simp [conversation_state, hm, h1]
    · intro h1
      simp [conversation_state, hm, h1]
    · intro h1 h2 h3 h4
      simp [conversation_state, hm, h1, h2, h3, h4]

theorem C7_conversation_state_witness :
    conversation_state [{ role := "user", content := "hi" }] =
      .ok .user_speaking :=
  (((C7_conversation_state [{ role := "user", content := "hi" }]).2
      { role := "user", content := "hi" } (by decide)).2.1) rfl (by decide)

/-! ## `preprocess_messages_for_llm` (`unmute/llm/llm_utils.py`)

The Python builds `output` from deep copies of the input messages, then — in
a second loop — strips the leading silence marker from qualifying `user`
messages of the original `chat_history` list, mutating those messages in
place; the returned `output` list contains only the earlier deep copies and
is unaffected by the second loop. The embedding returns the pair
(returned list, input list as the call leaves it). -/

def INTERRUPTION_CHAR : Char := '—'

def USER_SILENCE_MARKER : String := "..."

/-- `message["content"].replace(INTERRUPTION_CHAR, "")` -/
def removeInterruptionChars (s : String) : String :=
  ⟨s.data.filter (fun c => c ≠ INTERRUPTION_CHAR)⟩

/-- One iteration of the first loop: skip a message whose content is empty
once interruption characters are removed; merge it into the previous output
message when the roles match (space-joined), otherwise append it. -/
def pushMessage (out : List Msg) (m : Msg) : List Msg :=
  if removeInterruptionChars m.content = "" then out
  else
    match out.getLast? with
    | some prev =>
      if prev.role = m.role then
        out.dropLast ++
          [{ prev with content := prev.content ++ " " ++ m.content }]
      else out ++ [m]
    | none => out ++ [m]

/-- `role_at(1) in [None, "assistant"]` -/
def secondRoleOk : List Msg → Bool
  | [] => true
  | m1 :: _ => m1.role == "assistant"

/-- `role_at(0) == "system" and role_at(1) in [None, "assistant"]`: insert a
dummy user message after the system message. -/
def addDummyUser (out : List Msg) : List Msg :=
  match out with
  | [] => out
  | m0 :: rest =>
    if m0.role = "system" ∧ secondRoleOk rest then
      m0 :: { role := "user", content := "Hello." } :: rest
    else out

/-- The body of the second loop: strip the leading silence marker from a user
message that starts with it but is not exactly it. -/
def stripSilenceMarker (m : Msg) : Msg :=
  if m.role = "user" ∧ USER_SILENCE_MARKER.data.isPrefixOf m.content.data ∧
      m.content ≠ USER_SILENCE_MARKER then
    { m with content := m.content.drop USER_SILENCE_MARKER.length }
  else m

/-- `preprocess_messages_for_llm`: first component is the returned list,
second component is the state in which the call leaves its input list (the
second loop rewrites the input's messages in place). -/
def preprocess_messages_for_llm (chat_history : List Msg) :
    List Msg × List Msg :=
  (addDummyUser (chat_history.foldl pushMessage []),
    chat_history.map stripSilenceMarker)

/-- The C5 instance: one user message that starts with the silence marker and
then continues. -/
def silenceHist : List Msg := [{ role := "user", content := "...hello" }]

/-- C5: the claim says the preprocessing filter is pure and that qualifying
user messages appear in the returned sequence with the silence-marker prefix
stripped. On `silenceHist` the code does the opposite: the returned list
still carries the marker while the input list's message is rewritten in place
to the stripped text, because the stripping loop iterates over the input
`chat_history` instead of `output`. The in-code comment says the marker is
removed "to not confuse the LLM", i.e. it is meant to reach the returned
sequence, so the code contradicts its documented intent. -/
theorem C5_marker_strip_misses_output :
    (preprocess_messages_for_llm silenceHist).1 =
        [{ role := "user", content := "...hello" }] ∧
      (preprocess_messages_for_llm silenceHist).2 =
        [{ role := "user", content := "hello" }] ∧
      (preprocess_messages_for_llm silenceHist).2 ≠ silenceHist := by
  refine ⟨?_, ?_, ?_⟩ <;> decide

/-! ## `ToolRegistry.execute_tool` (`unmute/llm/tools/__init__.py`)

Effectful steps are abstracted as parameters: `jsonLoads` models
`json.loads` applied to a string-encoded argument payload (`.error` for a
raised `JSONDecodeError`) and `toolExec` models
`self.tools[name].execute(**args)` (`.error` for any exception the tool
raises, including bad keyword arguments). The registry's keys are
`toolNames`. In the embedding's codomain `Except String String`, an
exception escaping `execute_tool` itself would be `.error`. -/

/-- The `try` block of `execute_tool`: decode the arguments, then run the
tool; either step may raise. -/
def toolCallBody (jsonLoads : String → Except String (List (String × String)))
    (toolExec : String → List (String × String) → Except String String)
    (tc : ToolCall) : Except String String :=
  match tc.function.arguments with
  | .argsStr s => do
    let args ← jsonLoads s
    toolExec tc.function.name args
  | .argsDict d => toolExec tc.function.name d

/-- `execute_tool`: unknown tools yield an error string as the result; any
exception raised while decoding arguments or executing the tool is caught and
converted into the result string. -/
def execute_tool (toolNames : List String)
    (jsonLoads : String → Except String (List (String × String)))
    (toolExec : String → List (String × String) → Except String String)
    (tc : ToolCall) : Except String String :=
  let function_name := tc.function.name
  if function_name ∉ toolNames then
    .ok ("Erreur: outil \x27" ++ function_name ++ "\x27 non trouvé")
  else
    match toolCallBody jsonLoads toolExec tc with
    | .ok result => .ok result
    | .error e =>
      .ok ("Erreur lors de l\x27exécution de " ++ function_name ++ ": " ++ e)

/-- C9: `execute_tool` always returns a text result and never lets an
exception escape: an unregistered tool name yields an error string; when the
tool is registered, any failure of the `try` body — malformed JSON argument
string included — is caught and converted into a descriptive error string
returned as the result. -/
theorem C9_execute_tool_never_raises (toolNames : List String)
    (jsonLoads : String → Except String (List (String × String)))
    (toolExec : String → List (String × String) → Except String String)
    (tc : ToolCall) :
    (∃ s, execute_tool toolNames jsonLoads toolExec tc = .ok s) ∧
    (tc.function.name ∉ toolNames →
      execute_tool toolNames jsonLoads toolExec tc =
        .ok ("Erreur: outil \x27" ++ tc.function.name ++ "\x27 non trouvé")) ∧
    (tc.function.name ∈ toolNames →
      ∀ e, toolCallBody jsonLoads toolExec tc = .error e →
        execute_tool toolNames jsonLoads toolExec tc =
          .ok ("Erreur lors de l\x27exécution de " ++ tc.function.name ++
            ": " ++ e)) ∧
    (∀ s e, tc.function.arguments = .argsStr s → jsonLoads s = .error e →
      toolCallBody jsonLoads toolExec tc = .error e) := by
  refine ⟨?_, ?_, ?_, ?_⟩
  · by_cases h : tc.function.name ∈ toolNames
    · rcases hb : toolCallBody jsonLoads toolExec tc with e | r
      · exact ⟨"Erreur lors de l\x27exécution de " ++ tc.function.name ++
          ": " ++ e, by simp [execute_tool, h, hb]⟩
      · exact ⟨r, by simp [execute_tool, h, hb]⟩
    · exact ⟨"Erreur: outil \x27" ++ tc.function.name ++ "\x27 non trouvé",
        by simp [execute_tool, h]⟩
  · intro h
    simp [execute_tool, h]
  · intro h e hb
    simp [execute_tool, h, hb]
  · intro s e hs he
    simp [toolCallBody, hs, he, Bind.bind, Except.bind]

/-- The concrete unknown-tool call used to instantiate C9. -/
def nopeCall : ToolCall :=
  { function := { name := "nope", arguments := ToolArguments.argsStr "x" } }

theorem C9_execute_tool_witness :
    execute_tool ["get_time"] (fun _ => .error "bad json")
        (fun _ _ => .ok "ok") nopeCall =
      .ok ("Erreur: outil \x27nope\x27 non trouvé") :=
  (C9_execute_tool_never_raises ["get_time"] (fun _ => .error "bad json")
      (fun _ _ => .ok "ok") nopeCall).2.1 (by decide)

/-! ## `Chatbot.process_ollama_with_tools` (`unmute/llm/chatbot.py`)

With tools enabled the method runs `while True`: it streams one model round;
content chunks are yielded; at the first `tool_calls` chunk it appends the
assistant tool-call message and one `tool` message per call to the history,
rebuilds the messages and breaks out of the round; the outer loop stops only
when a round produced no tool-call chunk. The model stream is abstracted as
the per-round chunk list `rounds : Nat → List Chunk`, and
`tool_registry.execute_tool` as `execResult`. The loop body has no round
counter and no cap, so the embedding is fuel-indexed: `processRounds`
returns `none` when `fuel` rounds did not suffice to reach a round without
tool calls. -/

inductive Chunk where
  | content (s : String)
  | toolCallBatch (tcs : List ToolCall)
deriving Repr

def isToolCallBatch : Chunk → Bool
  | Chunk.toolCallBatch _ => true
  | _ => false

/-- Content yielded in one round: the content chunks seen before the first
tool-call batch (the handler breaks the inner `async for` there). -/
def roundContents (chunks : List Chunk) : List String :=
  (chunks.takeWhile (fun c => !(isToolCallBatch c))).filterMap
    (fun c => match c with
      | Chunk.content s => some s
      | _ => none)

/-- The first tool-call batch of the round, if any. -/
def roundToolCalls (chunks : List Chunk) : Option (List ToolCall) :=
  match chunks.dropWhile (fun c => !(isToolCallBatch c)) with
  | Chunk.toolCallBatch tcs :: _ => some tcs
  | _ => none

/-- History growth of one tool round: the assistant message carrying the
tool calls, then one `tool` message per call holding the executed result and
the call id (`tool_call.get("id", "unknown")`). -/
def toolResultMsg (execResult : ToolCall → String) (tc : ToolCall) : Msg :=
  { role := "tool"
    content := execResult tc
    tool_call_id := some (tc.id.getD "unknown") }

def appendToolRound (hist : List Msg) (tcs : List ToolCall)
    (execResult : ToolCall → String) : List Msg :=
  (hist ++ [{ role := "assistant", content := "", tool_calls := tcs }]) ++
    tcs.map (toolResultMsg execResult)

/-- The `while True` loop, fuel-indexed: run round `i`; stop with the yielded
content and final history when the round has no tool calls, otherwise
execute the calls, grow the history and continue with the next round. -/
def processRounds (rounds : Nat → List Chunk) (execResult : ToolCall → String)
    (hist : List Msg) (i : Nat) : Nat → Option (List String × List Msg)
  | 0 => none
  | fuel + 1 =>
    let chunks := rounds i
    let ys := roundContents chunks
    match roundToolCalls chunks with
    | none => some (ys, hist)
    | some tcs =>
      match processRounds rounds execResult
          (appendToolRound hist tcs execResult) (i + 1) fuel with
      | none => none
      | some (rest, h) => some (ys ++ rest, h)

/-- A single time-query tool call. -/
def timeToolCall : ToolCall :=
  { id := some "call_0"
    function := { name := "get_time", arguments := ToolArguments.argsDict [] } }

/-- A model stream that requests a tool call on every round. -/
def alwaysToolStream : Nat → List Chunk :=
  fun _ => [Chunk.toolCallBatch [timeToolCall]]

/-- C4: the tool invocation loop has no configured round cap: on a stream
that produces a tool-call batch on every round, no number of rounds ever
reaches the loop's only exit (a round without tool calls), so the
`while True` loop never terminates; the cap the claim requires is absent
from the code. -/
theorem C4_loop_has_no_round_cap (execResult : ToolCall → String)
    (hist : List Msg) (i fuel : Nat) :
    processRounds alwaysToolStream execResult hist i fuel = none := by
  induction fuel generalizing hist i with
  | zero => rfl
  | succ fuel ih =>
    simp [processRounds, alwaysToolStream, roundToolCalls, isToolCallBatch,
      List.dropWhile, ih]

/-! ## Handshake ordering in the interface tests

`perfect_tts_test.py` runs `wait_ready_then_receive` and `send_when_ready`
concurrently: the sender's first action awaits the `start_sending` event,
which the receiver sets exactly when it observes a `Ready` frame (during the
purge phase or during the explicit wait). `simple_stt_test.py` runs
`receive_transcription` and `send_audio` concurrently; `send_audio` only
awaits `asyncio.sleep(0.5)` before its first `Audio` frame. Task bodies are
modelled as action lists executed under an arbitrary interleaving:
`SAct.sleepStep` (an `asyncio.sleep`, which any schedule may simply let
elapse), `SAct.waitReady` (enabled only once the ready event is set) and
`SAct.send` (an outbound `Text`/`Audio`/`Eos`/`Marker` frame). The receiver
consumes the server's frame list, setting the ready event when the consumed
frame is `Ready`. `sentBeforeReady` records whether some outbound frame was
sent before the receiver observed `Ready`. -/

inductive Frame where
  | ready
  | other
deriving DecidableEq, Repr

inductive SAct where
  | sleepStep
  | waitReady
  | send
deriving DecidableEq, Repr

structure Sess where
  prog : List SAct
  frames : List Frame
  readyObserved : Bool
  sentBeforeReady : Bool
deriving DecidableEq, Repr

def senderStep (s : Sess) : Sess :=
  match s.prog with
  | [] => s
  | SAct.sleepStep :: rest => { s with prog := rest }
  | SAct.waitReady :: rest =>
    if s.readyObserved then { s with prog := rest } else s
  | SAct.send :: rest =>
    { s with
      prog := rest
      sentBeforeReady := s.sentBeforeReady || !s.readyObserved }

def receiverStep (s : Sess) : Sess :=
  match s.frames with
  | [] => s
  | f :: rest =>
    { s with
      frames := rest
      readyObserved := s.readyObserved || (f == Frame.ready) }

/-- Run a schedule: `true` steps the sender task, `false` the receiver. -/
def runSession (s : Sess) (sched : List Bool) : Sess :=
  sched.foldl
    (fun st b => match b with
      | true => senderStep st
      | false => receiverStep st) s

/-- `send_when_ready` of `perfect_tts_test.py`: await `start_sending`, then
send one `Text` frame per word and the final `Eos` frame. -/
def ttsSenderProg (nWords : Nat) : List SAct :=
  SAct.waitReady :: (List.replicate nWords SAct.send ++ [SAct.send])

/-- `send_audio` of `simple_stt_test.py`: `await asyncio.sleep(0.5)`, then
send the audio chunks (each followed by a sleep), the end `Marker`, and the
silence chunks. -/
def sttSenderProg (nChunks nSilence : Nat) : List SAct :=
  SAct.sleepStep ::
    ((List.replicate nChunks [SAct.send, SAct.sleepStep]).flatten ++
      [SAct.send] ++
      (List.replicate nSilence [SAct.send, SAct.sleepStep]).flatten)

def initSession (prog : List SAct) (frames : List Frame) : Sess :=
  { prog := prog
    frames := frames
    readyObserved := false
    sentBeforeReady := false }

/-- Invariant of the synthesis-side session: nothing was ever sent before
`Ready` was observed, and while `Ready` is unobserved the sender is still
parked on its leading `waitReady`. -/
def ttsInvariant (nWords : Nat) (s : Sess) : Prop :=
  s.sentBeforeReady = false ∧
    (s.readyObserved = false → s.prog = ttsSenderProg nWords)

theorem ttsInvariant_receiverStep (nWords : Nat) (s : Sess)
    (h : ttsInvariant nWords s) : ttsInvariant nWords (receiverStep s) := by
  obtain ⟨h1, h2⟩ := h
  cases hf : s.frames with
  | nil =>
    have he : receiverStep s = s := by simp [receiverStep, hf]
    rw [he]
    exact ⟨h1, h2⟩
  | cons f rest =>
    constructor
    · simp [receiverStep, hf, h1]
    · intro hr
      simp [receiverStep, hf] at hr ⊢
      exact h2 hr.1

theorem ttsInvariant_senderStep (nWords : Nat) (s : Sess)
    (h : ttsInvariant nWords s) : ttsInvariant nWords (senderStep s) := by
  obtain ⟨h1, h2⟩ := h
  by_cases hro : s.readyObserved = true
  · constructor
    · cases hp : s.prog with
      | nil => simp [senderStep, hp, h1]
      | cons a rest =>
        cases a
        · simp [senderStep, hp, h1]
        · simp [senderStep, hp, hro, h1]
        · simp [senderStep, hp, h1, hro]
    · intro hc
      have hobs : (senderStep s).readyObserved = true := by
        cases hp : s.prog with
        | nil => simp [senderStep, hp, hro]
        | cons a rest =>
          cases a
          · simp [senderStep, hp, hro]
          · simp [senderStep, hp, hro]
          · simp [senderStep, hp, hro]
      rw [hc] at hobs
      cases hobs
  · have hr0 : s.readyObserved = false := by simpa using hro
    have hp := h2 hr0
    have hss : senderStep s = s := by
      simp [senderStep, hp, ttsSenderProg, hr0]
    rw [hss]
    exact ⟨h1, h2⟩

theorem ttsInvariant_run (nWords : Nat) (sched : List Bool) (s : Sess)
    (h : ttsInvariant nWords s) :
    ttsInvariant nWords (runSession s sched) := by
  induction sched generalizing s with
  | nil => exact h
  | cons b bs ih =>
    cases b
    · exact ih (receiverStep s) (ttsInvariant_receiverStep nWords s h)
    · exact ih (senderStep s) (ttsInvariant_senderStep nWords s h)

/-- C10: in the recognition-side session the sender does not block on the
`Ready` handshake: under the schedule in which the sender's initial sleep
elapses and the sender runs again before the receiver has consumed any
frame, an `Audio` frame is sent before `Ready` is observed — contradicting
the claim (and the code's own comment "Attendre Ready avant d'envoyer") —
whereas the synthesis-side sender, which first awaits the `start_sending`
event, never sends before `Ready` under any schedule. -/
theorem C10_stt_sends_before_ready :
    (runSession (initSession (sttSenderProg 1 25) [Frame.ready])
        [true, true]).sentBeforeReady = true ∧
    (∀ nWords : Nat, ∀ frames : List Frame, ∀ sched : List Bool,
      (runSession (initSession (ttsSenderProg nWords) frames)
          sched).sentBeforeReady = false) := by
  constructor
  · decide
  · intro nWords frames sched
    exact (ttsInvariant_run nWords sched
      (initSession (ttsSenderProg nWords) frames) ⟨rfl, fun _ => rfl⟩).1

/-! ## `rechunk_to_words` (`unmute/llm/llm_utils.py`)

The coroutine keeps `buffer` and `prefix` across deltas; for each delta it
appends the delta to the buffer and repeatedly extracts
`space_re.search(buffer)` — the first maximal run of whitespace — yielding
`prefix + chunk` for each non-empty `chunk` found before the run and setting
`prefix = " "`; once the stream ends, a non-empty buffer is flushed as
`prefix + buffer`. The inner `while` loop is embedded with explicit fuel;
one unit is spent per extracted whitespace run and `buffer.length` units
always suffice, giving the loop equation `drainWords_eq`. -/

/-- `space_re.search(buffer)` with `space_re = \s+`: the text before the
first whitespace run and the text after it, or `none` when the buffer has no
whitespace. -/
def findWsRun : List Char → Option (List Char × List Char)
  | [] => none
  | c :: cs =>
    if pyIsSpace c then some ([], cs.dropWhile pyIsSpace)
    else
      match findWsRun cs with
      | none => none
      | some (a, b) => some (c :: a, b)

theorem dropWhileLenLe (p : Char → Bool) (l : List Char) :
    (l.dropWhile p).length ≤ l.length := by
  induction l with
  | nil => simp
  | cons c cs ih =>
    by_cases h : p c
    · simp only [List.dropWhile_cons, h, if_true]
      exact Nat.le_succ_of_le ih
    · simp [List.dropWhile_cons, h]

theorem findWsRun_rest_lt (l : List Char) :
    ∀ a b, findWsRun l = some (a, b) → b.length < l.length := by
  induction l with
  | nil => intro a b h; cases h
  | cons c cs ih =>
    intro a b h
    by_cases hc : pyIsSpace c
    · simp only [findWsRun, hc, if_true, Option.some.injEq, Prod.mk.injEq]
        at h
      obtain ⟨_, hb⟩ := h
      subst hb
      exact Nat.lt_succ_of_le (dropWhileLenLe pyIsSpace cs)
    · cases hrec : findWsRun cs with
      | none => simp [findWsRun, hc, hrec] at h
      | some p =>
        obtain ⟨a0, b0⟩ := p
        simp [findWsRun, hc, hrec] at h
        obtain ⟨_, hb⟩ := h
        subst hb
        exact Nat.lt_succ_of_lt (ih a0 b0 hrec)

/-- The `while True` loop of `rechunk_to_words`, fuel-indexed. -/
def drainWordsF : Nat → List (List Char) → List Char → List Char →
    List (List Char) × List Char × List Char
  | 0, out, pfx, buf => (out, pfx, buf)
  | fuel + 1, out, pfx, buf =>
    match findWsRun buf with
    | none => (out, pfx, buf)
    | some (chunk, rest) =>
      drainWordsF fuel
        (if chunk = [] then out else out ++ [pfx ++ chunk]) [' '] rest

/-- The `while True` loop of `rechunk_to_words`: extract whitespace runs
until none remains, yielding each non-empty chunk with the pending prefix. -/
def drainWords (out : List (List Char)) (pfx buf : List Char) :
    List (List Char) × List Char × List Char :=
  drainWordsF buf.length out pfx buf

theorem drainWordsF_stable (f1 : Nat) :
    ∀ f2 out pfx buf, buf.length ≤ f1 → buf.length ≤ f2 →
      drainWordsF f1 out pfx buf = drainWordsF f2 out pfx buf := by
  induction f1 with
  | zero =>
    intro f2 out pfx buf h1 _
    have hb : buf = [] := List.length_eq_zero.mp (Nat.le_zero.mp h1)
    subst hb
    cases f2 <;> simp [drainWordsF, findWsRun]
  | succ f1 ih =>
    intro f2 out pfx buf h1 h2
    cases f2 with
    | zero =>
      have hb : buf = [] := List.length_eq_zero.mp (Nat.le_zero.mp h2)
      subst hb
      simp [drainWordsF, findWsRun]
    | succ f2 =>
      cases hfw : findWsRun buf with
      | none => simp [drainWordsF, hfw]
      | some p =>
        obtain ⟨chunk, rest⟩ := p
        have hlt := findWsRun_rest_lt buf chunk rest hfw
        simp only [drainWordsF, hfw]
        exact ih f2 _ [' '] rest (by omega) (by omega)

/-- Loop equation of `drainWords`. -/
theorem drainWords_eq (out : List (List Char)) (pfx buf : List Char) :
    drainWords out pfx buf =
      match findWsRun buf with
      | none => (out, pfx, buf)
      | some (chunk, rest) =>
        drainWords (if chunk = [] then out else out ++ [pfx ++ chunk])
          [' '] rest := by
  cases hfw : findWsRun buf with
  | none =>
    cases buf with
    | nil => rfl
    | cons c cs =>
      show drainWordsF (c :: cs).length out pfx (c :: cs) = _
      simp [List.length_cons, drainWordsF, hfw]
  | some p =>
    obtain ⟨chunk, rest⟩ := p
    cases buf with
    | nil => cases hfw
    | cons c cs =>
      have hlt := findWsRun_rest_lt (c :: cs) chunk rest hfw
      show drainWordsF (c :: cs).length out pfx (c :: cs) = _
      simp only [List.length_cons, drainWordsF, hfw]
      exact drainWordsF_stable cs.length rest.length _ [' '] rest
        (by simp at hlt; omega) (le_refl _)

theorem dropWhile_append_of_ne (p : Char → Bool) (l d : List Char)
    (h : l.dropWhile p ≠ []) :
    (l ++ d).dropWhile p = l.dropWhile p ++ d := by
  induction l with
  | nil => simp at h
  | cons c cs ih =>
    by_cases hc : p c
    · simp only [List.dropWhile_cons, hc, if_true] at h ⊢
      simpa [List.dropWhile_cons, hc] using ih h
    · simp [List.dropWhile_cons, hc]

theorem dropWhile_append_of_nil (p : Char → Bool) (l d : List Char)
    (h : l.dropWhile p = []) :
    (l ++ d).dropWhile p = d.dropWhile p := by
  induction l with
  | nil => simp
  | cons c cs ih =>
    by_cases hc : p c
    · simp only [List.dropWhile_cons, hc, if_true] at h ⊢
      simpa [List.dropWhile_cons, hc] using ih h
    · simp [List.dropWhile_cons, hc] at h

theorem findWsRun_append_of_ne (l : List Char) :
    ∀ d a b, findWsRun l = some (a, b) → b ≠ [] →
      findWsRun (l ++ d) = some (a, b ++ d) := by
  induction l with
  | nil => intro d a b h; cases h
  | cons c cs ih =>
    intro d a b h hb
    by_cases hc : pyIsSpace c
    · simp only [findWsRun, hc, if_true, Option.some.injEq, Prod.mk.injEq]
        at h
      obtain ⟨ha, hbd⟩ := h
      subst ha
      subst hbd
      show findWsRun (c :: (cs ++ d)) = _
      simp only [findWsRun, hc, if_true]
      rw [dropWhile_append_of_ne pyIsSpace cs d hb]
    · cases hrec : findWsRun cs with
      | none => simp [findWsRun, hc, hrec] at h
      | some p =>
        obtain ⟨a0, b0⟩ := p
        simp [findWsRun, hc, hrec] at h
        obtain ⟨ha, hbd⟩ := h
        subst ha
        subst hbd
        show findWsRun (c :: (cs ++ d)) = _
        simp [findWsRun, hc, ih d a0 b0 hrec hb]
  
theorem findWsRun_append_of_nil (l : List Char) :
    ∀ d a, findWsRun l = some (a, []) →
      findWsRun (l ++ d) = some (a, d.dropWhile pyIsSpace) := by
  induction l with
  | nil => intro d a h; cases h
  | cons c cs ih =>
    intro d a h
    by_cases hc : pyIsSpace c
    · simp only [findWsRun, hc, if_true, Option.some.injEq, Prod.mk.injEq]
        at h
      obtain ⟨ha, hbd⟩ := h
      subst ha
      show findWsRun (c :: (cs ++ d)) = _
      simp only [findWsRun, hc, if_true]
      rw [dropWhile_append_of_nil pyIsSpace cs d hbd]
    · cases hrec : findWsRun cs with
      | none => simp [findWsRun, hc, hrec] at h
      | some p =>
        obtain ⟨a0, b0⟩ := p
        simp [findWsRun, hc, hrec] at h
        obtain ⟨ha, hbd⟩ := h
        subst ha
        subst hbd
        show findWsRun (c :: (cs ++ d)) = _
        simp [findWsRun, hc, ih d a0 hrec]

/-- After a whitespace run was consumed (`pfx = " "`), leading whitespace of
the remaining input is absorbed without further yields. -/
theorem drainWords_dropWhile (out : List (List Char)) (d : List Char) :
    drainWords out [' '] (d.dropWhile pyIsSpace) = drainWords out [' '] d := by
  cases d with
  | nil => rfl
  | cons c cs =>
    by_cases hc : pyIsSpace c
    · have h1 : (c :: cs).dropWhile pyIsSpace = cs.dropWhile pyIsSpace := by
        simp [List.dropWhile_cons, hc]
      have hfw : findWsRun (c :: cs) = some ([], cs.dropWhile pyIsSpace) := by
        simp [findWsRun, hc]
      rw [h1, drainWords_eq out [' '] (c :: cs), hfw]
      rfl
    · have h1 : (c :: cs).dropWhile pyIsSpace = c :: cs := by
        simp [List.dropWhile_cons, hc]
      rw [h1]

/-- Draining a buffer and then appending more text drains exactly as
draining the combined buffer would: the loop state after a delta carries all
information the loop needs about earlier deltas. -/
theorem drainWords_append_aux (fuel : Nat) :
    ∀ buf : List Char, buf.length ≤ fuel → ∀ out pfx d,
      drainWords out pfx (buf ++ d) =
        drainWords (drainWords out pfx buf).1 (drainWords out pfx buf).2.1
          ((drainWords out pfx buf).2.2 ++ d) := by
  induction fuel with
  | zero =>
    intro buf hb out pfx d
    have h0 : buf = [] := List.length_eq_zero.mp (Nat.le_zero.mp hb)
    subst h0
    rfl
  | succ fuel ih =>
    intro buf hb out pfx d
    cases hfw : findWsRun buf with
    | none =>
      have h1 : drainWords out pfx buf = (out, pfx, buf) := by
        rw [drainWords_eq, hfw]
      rw [h1]
    | some p =>
      obtain ⟨chunk, rest⟩ := p
      have hlt := findWsRun_rest_lt buf chunk rest hfw
      have h1 : drainWords out pfx buf =
          drainWords (if chunk = [] then out else out ++ [pfx ++ chunk])
            [' '] rest := by
        rw [drainWords_eq, hfw]
      by_cases hrest : rest = []
      · subst hrest
        have hfw2 : findWsRun (buf ++ d) =
            some (chunk, d.dropWhile pyIsSpace) :=
          findWsRun_append_of_nil buf d chunk hfw
        have h2 : drainWords out pfx (buf ++ d) =
            drainWords (if chunk = [] then out else out ++ [pfx ++ chunk])
              [' '] (d.dropWhile pyIsSpace) := by
          rw [drainWords_eq, hfw2]
        rw [h2, drainWords_dropWhile, h1]
        rfl
      · have hfw2 : findWsRun (buf ++ d) = some (chunk, rest ++ d) :=
          findWsRun_append_of_ne buf d chunk rest hfw hrest
        have h2 : drainWords out pfx (buf ++ d) =
            drainWords (if chunk = [] then out else out ++ [pfx ++ chunk])
              [' '] (rest ++ d) := by
          rw [drainWords_eq, hfw2]
        rw [h2, h1]
        exact ih rest (by omega) _ [' '] d

theorem drainWords_append (out : List (List Char)) (pfx buf d : List Char) :
    drainWords out pfx (buf ++ d) =
      drainWords (drainWords out pfx buf).1 (drainWords out pfx buf).2.1
        ((drainWords out pfx buf).2.2 ++ d) :=
  drainWords_append_aux buf.length buf (le_refl _) out pfx d

/-- One `async for` iteration of `rechunk_to_words`: append the delta to the
buffer and run the inner loop. -/
def feedDelta (st : List (List Char) × List Char × List Char)
    (delta : List Char) : List (List Char) × List Char × List Char :=
  drainWords st.1 st.2.1 (st.2.2 ++ delta)

/-- The whole `async for` loop over a finite stream of deltas, starting from
`buffer = ""`, `prefix = ""` and no yields. -/
def rechunkCore (deltas : List (List Char)) :
    List (List Char) × List Char × List Char :=
  deltas.foldl feedDelta ([], [], [])

/-- The flush after the stream ends: `if buffer != "": yield prefix + buffer`. -/
def rechunkFinal (st : List (List Char) × List Char × List Char) :
    List (List Char) :=
  if st.2.2 = [] then st.1 else st.1 ++ [st.2.1 ++ st.2.2]

/-- `rechunk_to_words`: the finite-stream embedding of the coroutine. -/
def rechunk_to_words (deltas : List String) : List String :=
  (rechunkFinal (rechunkCore (deltas.map String.data))).map
    (fun l => (⟨l⟩ : String))

theorem feedDelta_comp (st : List (List Char) × List Char × List Char)
    (d j : List Char) :
    feedDelta (feedDelta st d) j = feedDelta st (d ++ j) := by
  unfold feedDelta
  rw [← List.append_assoc]
  exact (drainWords_append st.1 st.2.1 (st.2.2 ++ d) j).symm

theorem foldl_feedDelta (deltas : List (List Char)) :
    ∀ st : List (List Char) × List Char × List Char, feedDelta st [] = st →
      deltas.foldl feedDelta st = feedDelta st deltas.flatten := by
  induction deltas with
  | nil =>
    intro st hst
    exact hst.symm
  | cons d ds ih =>
    intro st hst
    show ds.foldl feedDelta (feedDelta st d) = _
    have hst2 : feedDelta (feedDelta st d) [] = feedDelta st d := by
      rw [feedDelta_comp, List.append_nil]
    rw [ih (feedDelta st d) hst2, feedDelta_comp]
    rfl

/-- The loop state is a function of the concatenation of the deltas alone. -/
theorem rechunkCore_concat (ds : List String) :
    rechunkCore (ds.map String.data) =
      rechunkCore ([concatAll ds].map String.data) := by
  have h3 : ((ds.map String.data).flatten) = (concatAll ds).data := by
    induction ds with
    | nil => rfl
    | cons d ds ih =>
      show d.data ++ (ds.map String.data).flatten = (d ++ concatAll ds).data
      rw [ih, String.data_append]
  show (ds.map String.data).foldl feedDelta ([], [], []) = _
  rw [foldl_feedDelta (ds.map String.data) ([], [], []) rfl, h3]
  rfl

/-- C8: `rechunk_to_words` on the single delta `"foo bar baz"` yields exactly
`["foo", " bar", " baz"]`; fed the same text one character per delta it
yields the same sequence; in general its output depends only on the
concatenation of the deltas, not on where they are split. -/
theorem C8_rechunk_split_invariant :
    rechunk_to_words ["foo bar baz"] = ["foo", " bar", " baz"] ∧
      rechunk_to_words (("foo bar baz").data.map
        (fun c => (⟨[c]⟩ : String))) = ["foo", " bar", " baz"] ∧
      (∀ ds : List String,
        rechunk_to_words ds = rechunk_to_words [concatAll ds]) := by
  refine ⟨by decide, by decide, ?_⟩
  intro ds
  unfold rechunk_to_words
  rw [rechunkCore_concat]
